import Mathlib

/-!
# Verification of the autotune frame-scheduling pipeline

Shallow embedding of the frame scheduling, overlap-add reconstruction,
normalization and format conversion implemented twice in the repository:
once in `AudioProcessor::process_file` (src/audio_processor.rs, run on a
background thread) and once in `run_cli` (src/cli.rs, synchronous loop).

Samples are embedded as exact rationals (`ℚ`); the Rust code uses `f32`,
and decimal literals such as `0.95` denote the exact rational constant.
The external correction engine `process_autotune` is opaque and is
modelled as a function from the invocation index (the sequential
`AutotuneState` position) and the input frame to an optional output
frame, `none` standing for an engine error.
-/

set_option autoImplicit false

namespace Autotune

/-- The external correction engine: invocation index → input frame →
optional output frame (`none` models a `process_autotune` error).
The index models the strictly sequential mutation of `AutotuneState`,
one call per frame in frame order. -/
def Engine : Type := Nat → List ℚ → Option (List ℚ)

/-- `if acc.len() < n { acc.resize(n, 0.0) }`: grow the output
accumulator with zeros, never shrink (the guard makes the Rust call
grow-only). -/
def resizeTo (l : List ℚ) (n : Nat) : List ℚ :=
  if l.length < n then l ++ List.replicate (n - l.length) 0 else l

/-- `for (i, &x) in xs.iter().enumerate() { acc[pos + i] += x }`:
overlap-add of `xs` into `acc` at offset `pos`.  Every caller resizes
`acc` first so the indices are in range; entries of `xs` that would fall
beyond `acc` are ignored here (Rust would panic, but that is unreachable
through the callers). -/
def addInto : List ℚ → Nat → List ℚ → List ℚ
  | acc, _, [] => acc
  | [], _, _ :: _ => []
  | a :: acc, 0, x :: xs => (a + x) :: addInto acc 0 xs
  | a :: acc, p + 1, x :: xs => a :: addInto acc p (x :: xs)

/-- State of the frame loop in `AudioProcessor::process_file`
(audio_processor.rs:124-175): the accumulator `processed_audio`, the
read position `sample_pos`, the counter `chunk_index` (also the engine
invocation index) and the `ProcessingProgress::Progress` fractions sent
so far. -/
structure ProcLoopState where
  acc : List ℚ
  pos : Nat
  k : Nat
  events : List ℚ
deriving DecidableEq

/-- The `while sample_pos + fft_size <= mono_samples` loop of
audio_processor.rs:133-175, as fuel-indexed recursion.  Each iteration
extracts the frame, calls the engine, overlap-adds the engine output
(or, on engine error, the original frame) into the accumulator, emits
`chunk_index / total_chunks` as a progress fraction, and advances by
`hop`. -/
def procLoop (e : Engine) (mono : List ℚ) (fft hop tot : Nat) :
    Nat → ProcLoopState → ProcLoopState
  | 0, s => s
  | fuel + 1, s =>
    if s.pos + fft ≤ mono.length then
      let frame := (mono.drop s.pos).take fft
      let acc' :=
        match e s.k frame with
        | some out => addInto (resizeTo s.acc (s.pos + fft)) s.pos out
        | none => addInto (resizeTo s.acc (s.pos + fft)) s.pos frame
      let k' := s.k + 1
      procLoop e mono fft hop tot fuel
        { acc := acc', pos := s.pos + hop, k := k',
          events := s.events ++ [(k' : ℚ) / (tot : ℚ)] }
    else s

/-- The loop of audio_processor.rs run to completion from the initial
state, with `total_chunks = (mono_samples + fft_size - 1) / hop_size`
(audio_processor.rs:126).  Fuel `mono.length + 1` is enough iterations
whenever `hop_size ≥ 1`. -/
def procLoopEnd (e : Engine) (mono : List ℚ) (fft hop : Nat) : ProcLoopState :=
  procLoop e mono fft hop ((mono.length + fft - 1) / hop) (mono.length + 1)
    { acc := [], pos := 0, k := 0, events := [] }

/-- The trailing-samples block of audio_processor.rs:177-209: when
`sample_pos < mono_samples`, the final short frame is zero-padded to
`fft_size`, run through the engine, and only the first `remaining`
entries of the result (or, on engine error, the original samples) are
overlap-added into the accumulator. -/
def procFinalFrame (e : Engine) (mono : List ℚ) (fft : Nat)
    (pos k : Nat) (acc : List ℚ) : List ℚ :=
  if pos < mono.length then
    let remaining := mono.length - pos
    let frame := mono.drop pos ++ List.replicate (fft - remaining) 0
    match e k frame with
    | some out => addInto (resizeTo acc (pos + remaining)) pos (out.take remaining)
    | none => addInto (resizeTo acc (pos + remaining)) pos (mono.drop pos)
  else acc

/-- State of the frame loop in `run_cli` (cli.rs:224-269): accumulator,
position, `chunk_count`, and the verbose progress percentages printed
so far. -/
structure CliLoopState where
  acc : List ℚ
  pos : Nat
  k : Nat
  printed : List ℚ
deriving DecidableEq

/-- The `while sample_pos + fft_size <= mono_data.len()` loop of
cli.rs:229-269.  The accumulator updates are identical to the threaded
loop; the difference is the progress reporting: a percentage
`(chunk_count / total_chunks) * 100` is printed only when `verbose` is
set and `chunk_count % 100 == 0`, with
`total_chunks = (mono_data.len() + hop_size - 1) / hop_size`
(cli.rs:222). -/
def cliLoop (verbose : Bool) (e : Engine) (mono : List ℚ) (fft hop tot : Nat) :
    Nat → CliLoopState → CliLoopState
  | 0, s => s
  | fuel + 1, s =>
    if s.pos + fft ≤ mono.length then
      let frame := (mono.drop s.pos).take fft
      let acc' :=
        match e s.k frame with
        | some out => addInto (resizeTo s.acc (s.pos + fft)) s.pos out
        | none => addInto (resizeTo s.acc (s.pos + fft)) s.pos frame
      let k' := s.k + 1
      let printed' :=
        if verbose ∧ k' % 100 = 0 then
          s.printed ++ [(k' : ℚ) / (tot : ℚ) * 100]
        else s.printed
      cliLoop verbose e mono fft hop tot fuel
        { acc := acc', pos := s.pos + hop, k := k', printed := printed' }
    else s

/-- The loop of cli.rs run to completion from the initial state. -/
def cliLoopEnd (verbose : Bool) (e : Engine) (mono : List ℚ) (fft hop : Nat) :
    CliLoopState :=
  cliLoop verbose e mono fft hop ((mono.length + hop - 1) / hop) (mono.length + 1)
    { acc := [], pos := 0, k := 0, printed := [] }

/-- The trailing-samples block of cli.rs:272-290: same zero-padded final
frame, but the engine result is consumed with `if let Ok(_) = ...` and
there is no `Err` arm — on engine error nothing is added and the
accumulator is not even resized. -/
def cliFinalFrame (e : Engine) (mono : List ℚ) (fft : Nat)
    (pos k : Nat) (acc : List ℚ) : List ℚ :=
  if pos < mono.length then
    let remaining := mono.length - pos
    let frame := mono.drop pos ++ List.replicate (fft - remaining) 0
    match e k frame with
    | some out => addInto (resizeTo acc (pos + remaining)) pos (out.take remaining)
    | none => acc
  else acc

/-- `processed_audio.iter().map(|&x| x.abs()).fold(0.0, f32::max)`
(audio_processor.rs:215, cli.rs:297). -/
def peakOf (xs : List ℚ) : ℚ := xs.foldl (fun m x => max m |x|) 0

/-- The normalization pass (audio_processor.rs:215-221, cli.rs:297-306):
if the peak exceeds 1.0, every sample is multiplied by `0.95 / peak`,
otherwise the samples are unchanged. -/
def normalize (xs : List ℚ) : List ℚ :=
  if 1 < peakOf xs then xs.map (fun x => x * (0.95 / peakOf xs)) else xs

/-- Stereo reconstruction (audio_processor.rs:228-233, cli.rs:313-318):
each mono sample is pushed twice, once per channel. -/
def toStereo : List ℚ → List ℚ
  | [] => []
  | x :: xs => x :: x :: toStereo xs

/-- `f32::round`: round to the nearest integer, ties away from zero. -/
def rndAway (q : ℚ) : ℤ := if 0 ≤ q then ⌊q + 1 / 2⌋ else ⌈q - 1 / 2⌉

/-- The per-depth output scale (audio_processor.rs:242-247,
cli.rs:328-333): `none` for an unsupported bit depth. -/
def outputScale (bits : Nat) : Option ℚ :=
  if bits = 16 then some 32767.0
  else if bits = 24 then some 8388607.0
  else if bits = 32 then some 2147483647.0
  else none

/-- Decoding a 16-bit integer sample: `sample as f32 * (1.0 / 32768.0)`
(audio_processor.rs:79, cli.rs:169). -/
def decodeSample16 (s : ℤ) : ℚ := (s : ℚ) * (1 / 32768)

/-- Encoding a canonical sample at 16-bit depth:
`(x * 32767.0).round() as i32` (audio_processor.rs:250, cli.rs:336). -/
def encodeSample16 (x : ℚ) : ℤ := rndAway (x * 32767)

/-- Encode-then-decode at 16-bit depth. -/
def roundtrip16 (x : ℚ) : ℚ := decodeSample16 (encodeSample16 x)

/-- The error string of the dead `_ => return ...Error(...)` arms of the
output-scale matches; the live bit-depth check earlier in both files
uses the same sentence with the offending depth interpolated.  Both
files build the identical strings. -/
def badDepthMsg (bits : Nat) : String :=
  "Unsupported bit depth: " ++ toString bits ++
    ". Only 16, 24, and 32-bit are supported."

/-- Terminal result of one pipeline run on already-decoded mono data:
the written integer samples on success, the error message of an early
`return`, or a Rust panic (the integer division by zero in
`total_chunks` when `hop_size == 0`). -/
inductive RunOutcome where
  | ok (samples : List ℤ)
  | err (msg : String)
  | panic
deriving DecidableEq

/-- `AudioProcessor::process_file` from decoded mono data to the written
integer samples, together with the progress fractions it sent.  The
bit-depth check (audio_processor.rs:53-58) precedes processing; with
`hop_size = 0` the run dies in the `total_chunks` division
(audio_processor.rs:126) before any frame is processed.  No
check relates `hop_size` to `fft_size`. -/
def runProc (e : Engine) (mono : List ℚ) (fft hop : Nat)
    (stereoIn : Bool) (bits : Nat) : RunOutcome × List ℚ :=
  match outputScale bits with
  | none => (.err (badDepthMsg bits), [])
  | some oscale =>
    if hop = 0 then (.panic, [])
    else
      let s := procLoopEnd e mono fft hop
      let acc := procFinalFrame e mono fft s.pos s.k s.acc
      let norm := normalize acc
      let outSamples := if stereoIn then toStereo norm else norm
      (.ok (outSamples.map fun x => rndAway (x * oscale)), s.events)

/-- The processing-relevant command-line arguments of `Cli`
(cli.rs:11-59). -/
structure CliArgs where
  key : ℤ
  strength : ℚ
  transition : ℚ
  formant : ℤ
  octave : ℤ
  fft_size : Nat
  hop_size : Nat
  verbose : Bool

/-- The argument validation block of `run_cli` (cli.rs:79-97): musical
and correction parameters are range-checked; `fft_size` and `hop_size`
are not checked at all. -/
def cliValidate (c : CliArgs) : Option String :=
  if c.key < 0 ∨ 24 ≤ c.key then
    some "Key must be between 0 and 23. Use --list-keys to see available keys."
  else if c.strength < 0 ∨ 1 < c.strength then
    some "Pitch correction strength must be between 0.0 and 1.0"
  else if c.transition < 0.01 ∨ 1 < c.transition then
    some "Transition speed must be between 0.01 and 1.0"
  else if c.formant < -12 ∨ 12 < c.formant then
    some "Formant shift must be between -12 and +12 semitones"
  else if c.octave < 0 ∨ 4 < c.octave then
    some "Octave must be between 0 and 4"
  else none

/-- `run_cli` from decoded mono data to the written integer samples,
together with the progress percentages printed under `--verbose`.  As in
the threaded path, `hop_size = 0` dies in the `total_chunks` division
(cli.rs:222) and no check relates `hop_size` to `fft_size`. -/
def runCli (c : CliArgs) (e : Engine) (mono : List ℚ)
    (stereoIn : Bool) (bits : Nat) : RunOutcome × List ℚ :=
  match cliValidate c with
  | some msg => (.err msg, [])
  | none =>
    match outputScale bits with
    | none => (.err (badDepthMsg bits), [])
    | some oscale =>
      if c.hop_size = 0 then (.panic, [])
      else
        let s := cliLoopEnd c.verbose e mono c.fft_size c.hop_size
        let acc := cliFinalFrame e mono c.fft_size s.pos s.k s.acc
        let norm := normalize acc
        let outSamples := if stereoIn then toStereo norm else norm
        (.ok (outSamples.map fun x => rndAway (x * oscale)), s.printed)

/-! ## Basic properties of the overlap-add helpers -/

theorem length_addInto : ∀ (acc : List ℚ) (pos : Nat) (xs : List ℚ),
    (addInto acc pos xs).length = acc.length
  | _, _, [] => by simp [addInto]
  | [], _, _ :: _ => by simp [addInto]
  | a :: acc, 0, x :: xs => by
      simp [addInto, length_addInto acc 0 xs]
  | a :: acc, p + 1, x :: xs => by
      simp [addInto, length_addInto acc p (x :: xs)]

theorem length_resizeTo (l : List ℚ) (n : Nat) :
    (resizeTo l n).length = max l.length n := by
  unfold resizeTo
  split <;> simp <;> omega

theorem resizeTo_eq_append (l : List ℚ) (n : Nat) (h : l.length ≤ n) :
    resizeTo l n = l ++ List.replicate (n - l.length) 0 := by
  unfold resizeTo
  split
  case isTrue => rfl
  case isFalse hlt =>
    have hn : n - l.length = 0 := by omega
    simp [hn]

theorem addInto_append : ∀ (l m : List ℚ) (pos : Nat) (xs : List ℚ),
    addInto (l ++ m) (l.length + pos) xs = l ++ addInto m pos xs
  | [], m, pos, xs => by simp
  | a :: l, m, pos, [] => by simp [addInto]
  | a :: l, m, pos, x :: xs => by
      have e : (a :: l).length + pos = (l.length + pos) + 1 := by
        simp [Nat.add_assoc, Nat.add_comm]
      rw [e, List.cons_append]
      simp [addInto, addInto_append l m pos (x :: xs)]

theorem addInto_replicate_zero : ∀ (xs : List ℚ) (k : Nat), xs.length ≤ k →
    addInto (List.replicate k 0) 0 xs = xs ++ List.replicate (k - xs.length) 0
  | [], k, _ => by simp [addInto]
  | x :: xs, 0, h => by simp at h
  | x :: xs, k + 1, h => by
      rw [List.replicate_succ]
      have ih := addInto_replicate_zero xs k (by simpa using h)
      simp [addInto, ih]

theorem addInto_take : ∀ (acc : List ℚ) (pos : Nat) (xs : List ℚ),
    (addInto acc pos xs).take pos = acc.take pos
  | _, _, [] => by simp [addInto]
  | [], _, _ :: _ => by simp [addInto]
  | _ :: _, 0, _ :: _ => by simp
  | a :: acc, p + 1, x :: xs => by
      simp [addInto, addInto_take acc p (x :: xs)]

theorem addInto_getD : ∀ (acc : List ℚ) (pos : Nat) (xs : List ℚ) (i : Nat),
    pos + i < acc.length →
    (addInto acc pos xs).getD (pos + i) 0 = acc.getD (pos + i) 0 + xs.getD i 0
  | _, _, [], _, _ => by simp [addInto]
  | [], _, _ :: _, _, h => by simp at h
  | a :: acc, 0, x :: xs, 0, _ => by simp [addInto]
  | a :: acc, 0, x :: xs, i + 1, h => by
      have ih := addInto_getD acc 0 xs i (by simpa using h)
      simpa [addInto] using ih
  | a :: acc, p + 1, x :: xs, i, h => by
      have ih := addInto_getD acc p (x :: xs) i (by simp at h; omega)
      have e : p + 1 + i = (p + i) + 1 := by omega
      rw [e]
      simpa [addInto] using ih

/-- Overlap-adding a list of length `m` at offset `pos` into the resized
prefix `mono.take pos` appends it verbatim. -/
theorem addInto_resize_take (mono : List ℚ) (pos m : Nat) (xs : List ℚ)
    (hpos : pos ≤ mono.length) (hxs : xs.length = m) :
    addInto (resizeTo (mono.take pos) (pos + m)) pos xs = mono.take pos ++ xs := by
  have hlen : (mono.take pos).length = pos := by
    simp [List.length_take, Nat.min_eq_left hpos]
  rw [resizeTo_eq_append _ _ (by omega), hlen]
  have e1 : pos + m - pos = m := by omega
  rw [e1]
  have h2 := addInto_append (mono.take pos) (List.replicate m 0) 0 xs
  rw [hlen, Nat.add_zero] at h2
  rw [h2, addInto_replicate_zero xs m (by omega)]
  simp [hxs]

/-! ## Properties of the frame loops -/

/-- With a positive hop size and fuel `mono.length + 1 - s.pos`, the
loop runs until the frame no longer fits: the `while` condition fails at
the returned state. -/
theorem procLoop_stop (e : Engine) (mono : List ℚ) (fft hop tot : Nat)
    (hh : 0 < hop) : ∀ (fuel : Nat) (s : ProcLoopState),
    mono.length + 1 ≤ s.pos + fuel →
    ¬((procLoop e mono fft hop tot fuel s).pos + fft ≤ mono.length)
  | 0, s, h => by
      simp only [procLoop]
      omega
  | fuel + 1, s, h => by
      rw [procLoop]
      split
      case isTrue hc =>
        exact procLoop_stop e mono fft hop tot hh fuel _
          (by show mono.length + 1 ≤ s.pos + hop + fuel; omega)
      case isFalse hc => exact hc

/-- Invariants of the threaded frame loop under a sane configuration
`0 < hop ≤ fft`: the position stays a multiple of the hop, never passes
the input length, and the accumulator stays between the position and
the input length. -/
theorem procLoop_core_inv (e : Engine) (mono : List ℚ) (fft hop tot : Nat)
    (hh : 0 < hop) (hf : hop ≤ fft) : ∀ (fuel : Nat) (s : ProcLoopState),
    hop ∣ s.pos → s.pos ≤ mono.length → s.pos ≤ s.acc.length →
    s.acc.length ≤ mono.length →
    hop ∣ (procLoop e mono fft hop tot fuel s).pos ∧
    (procLoop e mono fft hop tot fuel s).pos ≤ mono.length ∧
    (procLoop e mono fft hop tot fuel s).pos ≤
      (procLoop e mono fft hop tot fuel s).acc.length ∧
    (procLoop e mono fft hop tot fuel s).acc.length ≤ mono.length
  | 0, s, h1, h2, h3, h4 => by
      simpa only [procLoop] using ⟨h1, h2, h3, h4⟩
  | fuel + 1, s, h1, h2, h3, h4 => by
      rw [procLoop]
      split
      case isFalse hc => exact ⟨h1, h2, h3, h4⟩
      case isTrue hc =>
        cases he : e s.k ((mono.drop s.pos).take fft) with
        | none =>
            simp only [he]
            refine procLoop_core_inv e mono fft hop tot hh hf fuel _
              (dvd_add h1 dvd_rfl) (by show s.pos + hop ≤ mono.length; omega)
              ?_ ?_
            · show s.pos + hop ≤ (addInto (resizeTo s.acc (s.pos + fft)) s.pos
                ((mono.drop s.pos).take fft)).length
              rw [length_addInto, length_resizeTo]
              omega
            · show (addInto (resizeTo s.acc (s.pos + fft)) s.pos
                ((mono.drop s.pos).take fft)).length ≤ mono.length
              rw [length_addInto, length_resizeTo]
              omega
        | some out =>
            simp only [he]
            refine procLoop_core_inv e mono fft hop tot hh hf fuel _
              (dvd_add h1 dvd_rfl) (by show s.pos + hop ≤ mono.length; omega)
              ?_ ?_
            · show s.pos + hop ≤ (addInto (resizeTo s.acc (s.pos + fft)) s.pos
                out).length
              rw [length_addInto, length_resizeTo]
              omega
            · show (addInto (resizeTo s.acc (s.pos + fft)) s.pos out).length ≤
                mono.length
              rw [length_addInto, length_resizeTo]
              omega

/-- The accumulator, position and chunk counter develop identically in
the synchronous CLI loop and the threaded loop: the loop bodies are the
same code, and the two differing `total_chunks` values and the verbose
flag only feed the progress reporting. -/
theorem cliLoop_core_eq_procLoop (v : Bool) (e : Engine) (mono : List ℚ)
    (fft hop totC totP : Nat) :
    ∀ (fuel : Nat) (sc : CliLoopState) (sp : ProcLoopState),
    sc.acc = sp.acc → sc.pos = sp.pos → sc.k = sp.k →
    (cliLoop v e mono fft hop totC fuel sc).acc =
      (procLoop e mono fft hop totP fuel sp).acc ∧
    (cliLoop v e mono fft hop totC fuel sc).pos =
      (procLoop e mono fft hop totP fuel sp).pos ∧
    (cliLoop v e mono fft hop totC fuel sc).k =
      (procLoop e mono fft hop totP fuel sp).k
  | 0, sc, sp, ha, hp, hk => by
      simpa only [cliLoop, procLoop] using ⟨ha, hp, hk⟩
  | fuel + 1, sc, sp, ha, hp, hk => by
      rw [cliLoop, procLoop, ha, hp, hk]
      by_cases hc : sp.pos + fft ≤ mono.length
      · rw [if_pos hc, if_pos hc]
        cases he : e sp.k ((mono.drop sp.pos).take fft) with
        | none =>
            simp only [he]
            exact cliLoop_core_eq_procLoop v e mono fft hop totC totP fuel _ _
              rfl rfl rfl
        | some out =>
            simp only [he]
            exact cliLoop_core_eq_procLoop v e mono fft hop totC totP fuel _ _
              rfl rfl rfl
      · rw [if_neg hc, if_neg hc]
        exact ⟨ha, hp, hk⟩

/-- With the identity engine and `hop = fft`, the loop keeps the
accumulator equal to the already-consumed prefix of the input. -/
theorem procLoop_id_inv (mono : List ℚ) (fft tot : Nat) :
    ∀ (fuel : Nat) (s : ProcLoopState),
    s.acc = mono.take s.pos → s.pos ≤ mono.length →
    (procLoop (fun _ fr => some fr) mono fft fft tot fuel s).acc =
      mono.take (procLoop (fun _ fr => some fr) mono fft fft tot fuel s).pos ∧
    (procLoop (fun _ fr => some fr) mono fft fft tot fuel s).pos ≤ mono.length
  | 0, s, h1, h2 => by simpa only [procLoop] using ⟨h1, h2⟩
  | fuel + 1, s, h1, h2 => by
      rw [procLoop]
      split
      case isFalse hc => exact ⟨h1, h2⟩
      case isTrue hc =>
        have hframe : ((mono.drop s.pos).take fft).length = fft := by
          simp only [List.length_take, List.length_drop]
          omega
        refine procLoop_id_inv mono fft tot fuel _ ?_
          (by show s.pos + fft ≤ mono.length; omega)
        show addInto (resizeTo s.acc (s.pos + fft)) s.pos
            ((mono.drop s.pos).take fft) = mono.take (s.pos + fft)
        rw [h1, addInto_resize_take mono s.pos fft _ (by omega) hframe,
          ← List.take_add]

/-! ## Peak scan, normalization, rounding and stereo duplication -/

theorem le_foldl_max_abs : ∀ (xs : List ℚ) (m : ℚ),
    m ≤ xs.foldl (fun a x => max a |x|) m
  | [], m => le_refl m
  | x :: xs, m =>
      le_trans (le_max_left m |x|) (le_foldl_max_abs xs (max m |x|))

theorem mem_le_foldl_max_abs : ∀ (xs : List ℚ) (m x : ℚ), x ∈ xs →
    |x| ≤ xs.foldl (fun a y => max a |y|) m
  | [], _, x, hx => absurd hx (List.not_mem_nil x)
  | y :: xs, m, x, hx => by
      rcases List.mem_cons.mp hx with h | h
      · subst h
        exact le_trans (le_max_right m |x|) (le_foldl_max_abs xs (max m |x|))
      · exact mem_le_foldl_max_abs xs (max m |y|) x h

theorem foldl_max_abs_attained : ∀ (xs : List ℚ) (m : ℚ),
    xs.foldl (fun a y => max a |y|) m = m ∨
      ∃ x ∈ xs, xs.foldl (fun a y => max a |y|) m = |x|
  | [], _ => Or.inl rfl
  | y :: xs, m => by
      simp only [List.foldl_cons]
      rcases foldl_max_abs_attained xs (max m |y|) with h | ⟨x, hx, h⟩
      · rcases max_choice m |y| with e | e
        · exact Or.inl (by rw [h, e])
        · exact Or.inr ⟨y, List.mem_cons_self y xs, by rw [h, e]⟩
      · exact Or.inr ⟨x, List.mem_cons_of_mem y hx, h⟩

theorem peakOf_nonneg (xs : List ℚ) : 0 ≤ peakOf xs := le_foldl_max_abs xs 0

theorem abs_le_peakOf (xs : List ℚ) (x : ℚ) (hx : x ∈ xs) : |x| ≤ peakOf xs :=
  mem_le_foldl_max_abs xs 0 x hx

theorem peakOf_attained (xs : List ℚ) :
    peakOf xs = 0 ∨ ∃ x ∈ xs, peakOf xs = |x| :=
  foldl_max_abs_attained xs 0

/-- `f32::round` differs from its argument by at most one half. -/
theorem abs_rndAway_sub (q : ℚ) : |(rndAway q : ℚ) - q| ≤ 1 / 2 := by
  unfold rndAway
  split
  case isTrue h =>
    rw [abs_le]
    constructor
    · have h1 := Int.lt_floor_add_one (q + 1 / 2)
      push_cast at h1
      linarith
    · have h1 := Int.floor_le (q + 1 / 2)
      push_cast at h1
      linarith
  case isFalse h =>
    rw [abs_le]
    constructor
    · have h1 := Int.le_ceil (q - 1 / 2)
      push_cast at h1
      linarith
    · have h1 := Int.ceil_lt_add_one (q - 1 / 2)
      push_cast at h1
      linarith

/-- `f32::round` of a value bounded by the integer `m` in magnitude
stays bounded by `m`. -/
theorem abs_rndAway_le (q : ℚ) (m : ℤ) (h : |q| ≤ (m : ℚ)) :
    |rndAway q| ≤ m := by
  rw [abs_le] at h
  obtain ⟨h1, h2⟩ := h
  rw [abs_le]
  unfold rndAway
  split
  case isTrue hq =>
    constructor
    · refine Int.le_floor.mpr ?_
      push_cast
      linarith
    · have hlt : ⌊q + 1 / 2⌋ < m + 1 := Int.floor_lt.mpr (by push_cast; linarith)
      omega
  case isFalse hq =>
    constructor
    · have hlt : -m - 1 < ⌈q - 1 / 2⌉ := Int.lt_ceil.mpr (by push_cast; linarith)
      omega
    · exact Int.ceil_le.mpr (by linarith)

theorem toStereo_getD : ∀ (xs : List ℚ) (i : Nat),
    (toStereo xs).getD (2 * i) 0 = xs.getD i 0 ∧
    (toStereo xs).getD (2 * i + 1) 0 = xs.getD i 0
  | [], i => by simp [toStereo]
  | x :: xs, 0 => by simp [toStereo]
  | x :: xs, i + 1 => by
      have ih := toStereo_getD xs i
      have e1 : 2 * (i + 1) = 2 * i + 1 + 1 := by ring
      rw [e1]
      simpa [toStereo, List.getD_cons_succ] using ih

/-- Evaluation rule for `f32::round` on a nonnegative value. -/
theorem rndAway_nonneg_eq (q : ℚ) (n : ℤ) (h0 : 0 ≤ q)
    (h1 : (n : ℚ) ≤ q + 1 / 2) (h2 : q + 1 / 2 < (n : ℚ) + 1) :
    rndAway q = n := by
  unfold rndAway
  rw [if_pos h0, Int.floor_eq_iff]
  exact ⟨h1, h2⟩

/-! ## Claim theorems -/

/-- C5: the normalizer computes the peak as the maximum absolute value
over the whole accumulated sequence (an upper bound on every entry,
attained unless the scan's initial value 0 wins); if the peak exceeds
1.0 it multiplies every sample by exactly `0.95 / peak`, and otherwise
returns every sample unchanged. -/
theorem normalize_peak_spec (xs : List ℚ) :
    (∀ x ∈ xs, |x| ≤ peakOf xs) ∧
    (peakOf xs = 0 ∨ ∃ x ∈ xs, peakOf xs = |x|) ∧
    (1 < peakOf xs →
      normalize xs = xs.map (fun x => x * (0.95 / peakOf xs))) ∧
    (peakOf xs ≤ 1 → normalize xs = xs) := by
  refine ⟨fun x hx => abs_le_peakOf xs x hx, peakOf_attained xs, ?_, ?_⟩
  · intro h
    unfold normalize
    rw [if_pos h]
  · intro h
    unfold normalize
    rw [if_neg (not_lt.mpr h)]

/-- Witness for C5: the sequence `[1, -2]` has peak 2 and is scaled by
exactly `0.95 / 2`; the sequence `[1/2]` has peak `1/2` and is returned
unchanged. -/
theorem normalize_peak_spec_witness :
    (1 < peakOf [1, -2] ∧ normalize [1, -2] = [(19 : ℚ) / 40, -(19 : ℚ) / 20]) ∧
    (peakOf [(1 : ℚ) / 2] ≤ 1 ∧ normalize [(1 : ℚ) / 2] = [(1 : ℚ) / 2]) := by
  have hpk : peakOf [1, -2] = 2 := by norm_num [peakOf, max_def, abs]
  have hpk2 : peakOf [(1 : ℚ) / 2] = 1 / 2 := by
    norm_num [peakOf, max_def, abs]
  have h1 := (normalize_peak_spec [1, -2]).2.2.1 (by rw [hpk]; norm_num)
  have h2 := (normalize_peak_spec [(1 : ℚ) / 2]).2.2.2 (by rw [hpk2]; norm_num)
  refine ⟨⟨by rw [hpk]; norm_num, ?_⟩, ⟨by rw [hpk2]; norm_num, h2⟩⟩
  rw [h1, hpk]
  norm_num

/-- C10: after normalization every sample has absolute value at most 1
(at most 0.95 when scaling was applied), so encoding it at any supported
bit depth — multiplying by the depth's maximum positive value and
rounding — yields an integer of magnitude at most `2^(bits-1) - 1`,
representable in the original bit depth. -/
theorem normalized_output_representable (xs : List ℚ) (bits : Nat) (oscale : ℚ)
    (hb : outputScale bits = some oscale) :
    ∀ y ∈ normalize xs, |y| ≤ 1 ∧ (1 < peakOf xs → |y| ≤ 0.95) ∧
      |rndAway (y * oscale)| ≤ 2 ^ (bits - 1) - 1 := by
  intro y hy
  have hbase : |y| ≤ 1 ∧ (1 < peakOf xs → |y| ≤ 0.95) := by
    unfold normalize at hy
    by_cases hp : 1 < peakOf xs
    · rw [if_pos hp] at hy
      obtain ⟨x, hx, rfl⟩ := List.mem_map.mp hy
      have hxp := abs_le_peakOf xs x hx
      have hpk0 : (0 : ℚ) < peakOf xs := lt_trans one_pos hp
      have hc0 : (0 : ℚ) ≤ 0.95 / peakOf xs := by positivity
      have hscale : |x * (0.95 / peakOf xs)| = |x| * (0.95 / peakOf xs) := by
        rw [abs_mul, abs_of_nonneg hc0]
      have hb95 : |x| * (0.95 / peakOf xs) ≤ 0.95 := by
        calc |x| * (0.95 / peakOf xs) ≤ peakOf xs * (0.95 / peakOf xs) :=
              mul_le_mul_of_nonneg_right hxp hc0
          _ = 0.95 := by field_simp
      refine ⟨?_, fun _ => by rw [hscale]; exact hb95⟩
      rw [hscale]
      have : (0.95 : ℚ) ≤ 1 := by norm_num
      linarith
    · rw [if_neg hp] at hy
      have hyp := abs_le_peakOf xs y hy
      exact ⟨le_trans hyp (not_lt.mp hp), fun h => absurd h hp⟩
  refine ⟨hbase.1, hbase.2, ?_⟩
  have hm : oscale = ((2 ^ (bits - 1) - 1 : ℤ) : ℚ) := by
    unfold outputScale at hb
    split at hb
    next h =>
      rw [Option.some_inj] at hb
      subst h
      rw [← hb]
      norm_num
    next h1 =>
      split at hb
      next h =>
        rw [Option.some_inj] at hb
        subst h
        rw [← hb]
        norm_num
      next h2 =>
        split at hb
        next h =>
          rw [Option.some_inj] at hb
          subst h
          rw [← hb]
          norm_num
        next h3 => exact absurd hb (by simp)
  have hosZ : (0 : ℤ) ≤ 2 ^ (bits - 1) - 1 := by
    have h2 : (0 : ℤ) < 2 ^ (bits - 1) := pow_pos (by norm_num) _
    omega
  have hos : (0 : ℚ) ≤ oscale := by
    rw [hm]
    exact_mod_cast hosZ
  have habs : |y * oscale| ≤ ((2 ^ (bits - 1) - 1 : ℤ) : ℚ) := by
    rw [← hm, abs_mul, abs_of_nonneg hos]
    calc |y| * oscale ≤ 1 * oscale := mul_le_mul_of_nonneg_right hbase.1 hos
      _ = oscale := one_mul oscale
  exact abs_rndAway_le _ _ habs

/-- Witness for C10: the accumulator `[3]` is normalized to `[19/20]`,
whose 16-bit encoding `31129` is within the representable range. -/
theorem normalized_output_representable_witness :
    |((19 : ℚ) / 20)| ≤ 1 ∧ (1 < peakOf [3] → |((19 : ℚ) / 20)| ≤ 0.95) ∧
      |rndAway ((19 : ℚ) / 20 * 32767)| ≤ 2 ^ (16 - 1) - 1 :=
  normalized_output_representable [3] 16 32767 (by norm_num [outputScale])
    ((19 : ℚ) / 20)
    (by norm_num [normalize, peakOf, max_def, abs])

/-- C8 as stated fails: encoding multiplies by 32767 while decoding
divides by 32768, so near full scale the round trip misses by more than
one quantization step.  The canonical value `3276649/3276700 ∈ [-1, 1]`
encodes to `32766` and decodes to `32766/32768`, an error exceeding
`1/32768`. -/
theorem roundtrip16_one_step_counterexample :
    (-1 ≤ (3276649 / 3276700 : ℚ) ∧ (3276649 / 3276700 : ℚ) ≤ 1) ∧
    ¬(|roundtrip16 (3276649 / 3276700) - 3276649 / 3276700| ≤ 1 / 32768) := by
  have e : rndAway ((3276649 : ℚ) / 3276700 * 32767) = 32766 :=
    rndAway_nonneg_eq _ _ (by norm_num) (by norm_num) (by norm_num)
  refine ⟨⟨by norm_num, by norm_num⟩, ?_⟩
  unfold roundtrip16 decodeSample16 encodeSample16
  rw [e]
  norm_num [abs, max_def]

/-- C8 amended: the 16-bit encode/decode round trip reproduces every
canonical value in [-1, 1] within one and a half quantization steps,
`3/65536` (the encode scale is 32767 but the decode scale is 1/32768);
and stereo reconstruction duplicates each mono sample into identical
left and right channels. -/
theorem roundtrip16_within_three_half_steps :
    (∀ x : ℚ, -1 ≤ x → x ≤ 1 → |roundtrip16 x - x| ≤ 3 / 65536) ∧
    (∀ (xs : List ℚ) (i : Nat),
      (toStereo xs).getD (2 * i) 0 = (toStereo xs).getD (2 * i + 1) 0) := by
  constructor
  · intro x h1 h2
    have hr := abs_rndAway_sub (x * 32767)
    have hx : |x| ≤ 1 := abs_le.mpr ⟨h1, h2⟩
    have e : roundtrip16 x - x =
        ((rndAway (x * 32767) : ℚ) - x * 32767 - x) / 32768 := by
      unfold roundtrip16 decodeSample16 encodeSample16
      ring
    rw [e, abs_div, abs_of_pos (by norm_num : (0 : ℚ) < 32768),
      div_le_iff₀ (by norm_num : (0 : ℚ) < 32768)]
    calc |(rndAway (x * 32767) : ℚ) - x * 32767 - x|
        = |((rndAway (x * 32767) : ℚ) - x * 32767) + -x| := by rw [sub_eq_add_neg]
      _ ≤ |(rndAway (x * 32767) : ℚ) - x * 32767| + |-x| := abs_add _ _
      _ = |(rndAway (x * 32767) : ℚ) - x * 32767| + |x| := by rw [abs_neg]
      _ ≤ 1 / 2 + 1 := add_le_add hr hx
      _ = 3 / 65536 * 32768 := by norm_num
  · intro xs i
    exact ((toStereo_getD xs i).1).trans ((toStereo_getD xs i).2).symm

/-- Witness for the amended C8: `1/2` round-trips to `16384/32768 = 1/2`
within the bound, and any concrete stereo pair agrees. -/
theorem roundtrip16_within_three_half_steps_witness :
    |roundtrip16 (1 / 2) - 1 / 2| ≤ 3 / 65536 :=
  roundtrip16_within_three_half_steps.1 (1 / 2) (by norm_num) (by norm_num)

/-- The core state of the completed CLI loop does not depend on the
verbose flag (only the printed progress does). -/
theorem cliLoopEnd_core_verbose (v₁ v₂ : Bool) (e : Engine) (mono : List ℚ)
    (fft hop : Nat) :
    (cliLoopEnd v₁ e mono fft hop).acc = (cliLoopEnd v₂ e mono fft hop).acc ∧
    (cliLoopEnd v₁ e mono fft hop).pos = (cliLoopEnd v₂ e mono fft hop).pos ∧
    (cliLoopEnd v₁ e mono fft hop).k = (cliLoopEnd v₂ e mono fft hop).k := by
  obtain ⟨a1, p1, k1⟩ := cliLoop_core_eq_procLoop v₁ e mono fft hop
    ((mono.length + hop - 1) / hop) 0 (mono.length + 1)
    { acc := [], pos := 0, k := 0, printed := [] }
    { acc := [], pos := 0, k := 0, events := [] } rfl rfl rfl
  obtain ⟨a2, p2, k2⟩ := cliLoop_core_eq_procLoop v₂ e mono fft hop
    ((mono.length + hop - 1) / hop) 0 (mono.length + 1)
    { acc := [], pos := 0, k := 0, printed := [] }
    { acc := [], pos := 0, k := 0, events := [] } rfl rfl rfl
  exact ⟨a1.trans a2.symm, p1.trans p2.symm, k1.trans k2.symm⟩

/-- C9: the verbose flag toggles only the progress printing; the written
samples and the success/failure outcome of the CLI run are identical for
every verbosity setting. -/
theorem verbose_invariance (c : CliArgs) (v : Bool) (e : Engine)
    (mono : List ℚ) (stereoIn : Bool) (bits : Nat) :
    (runCli { c with verbose := v } e mono stereoIn bits).1 =
      (runCli c e mono stereoIn bits).1 := by
  obtain ⟨ea, ep, ek⟩ := cliLoopEnd_core_verbose v c.verbose e mono
    c.fft_size c.hop_size
  unfold runCli
  have hval : cliValidate { c with verbose := v } = cliValidate c := rfl
  rw [hval]
  cases hv : cliValidate c with
  | some msg => rfl
  | none =>
    cases ho : outputScale bits with
    | none => rfl
    | some oscale =>
      dsimp only
      by_cases hh : c.hop_size = 0
      · rw [if_pos hh, if_pos hh]
      · rw [if_neg hh, if_neg hh]
        dsimp only
        rw [ea, ep, ek]

theorem getD_take_of_lt (l : List ℚ) (n i : Nat) (d : ℚ) (h : i < n) :
    (l.take n).getD i d = l.getD i d := by
  rw [List.getD_eq_getElem?_getD, List.getD_eq_getElem?_getD,
    List.getElem?_take_of_lt h]

/-- C6: with an identity engine (output frame equals input frame) and
`hopSize = frameSize`, the frame loop plus the trailing-frame handling
reconstruct exactly the input sequence — sample for sample, with no
padding region beyond the input length. -/
theorem overlap_add_identity (mono : List ℚ) (fft : Nat) (hf : 0 < fft) :
    procFinalFrame (fun _ fr => some fr) mono fft
      (procLoopEnd (fun _ fr => some fr) mono fft fft).pos
      (procLoopEnd (fun _ fr => some fr) mono fft fft).k
      (procLoopEnd (fun _ fr => some fr) mono fft fft).acc = mono := by
  obtain ⟨hacc, hpos⟩ :
      (procLoopEnd (fun _ fr => some fr) mono fft fft).acc =
        mono.take (procLoopEnd (fun _ fr => some fr) mono fft fft).pos ∧
      (procLoopEnd (fun _ fr => some fr) mono fft fft).pos ≤ mono.length :=
    procLoop_id_inv mono fft ((mono.length + fft - 1) / fft)
      (mono.length + 1) { acc := [], pos := 0, k := 0, events := [] } rfl
      (Nat.zero_le _)
  have hstop : ¬((procLoopEnd (fun _ fr => some fr) mono fft fft).pos + fft ≤
      mono.length) :=
    procLoop_stop (fun _ fr => some fr) mono fft fft
      ((mono.length + fft - 1) / fft) hf (mono.length + 1)
      { acc := [], pos := 0, k := 0, events := [] }
      (by show mono.length + 1 ≤ 0 + (mono.length + 1); omega)
  unfold procFinalFrame
  split
  case isTrue hlt =>
    have hdl : (mono.drop (procLoopEnd (fun _ fr => some fr) mono fft fft).pos).length =
        mono.length - (procLoopEnd (fun _ fr => some fr) mono fft fft).pos := by
      simp
    show addInto
        (resizeTo (procLoopEnd (fun _ fr => some fr) mono fft fft).acc
          ((procLoopEnd (fun _ fr => some fr) mono fft fft).pos +
            (mono.length - (procLoopEnd (fun _ fr => some fr) mono fft fft).pos)))
        (procLoopEnd (fun _ fr => some fr) mono fft fft).pos
        ((mono.drop (procLoopEnd (fun _ fr => some fr) mono fft fft).pos ++
          List.replicate
            (fft - (mono.length - (procLoopEnd (fun _ fr => some fr) mono fft fft).pos))
            0).take
          (mono.length - (procLoopEnd (fun _ fr => some fr) mono fft fft).pos)) = mono
    have htake : (mono.drop (procLoopEnd (fun _ fr => some fr) mono fft fft).pos ++
        List.replicate
          (fft - (mono.length - (procLoopEnd (fun _ fr => some fr) mono fft fft).pos))
          0).take
        (mono.length - (procLoopEnd (fun _ fr => some fr) mono fft fft).pos) =
        mono.drop (procLoopEnd (fun _ fr => some fr) mono fft fft).pos := by
      rw [← hdl]
      exact List.take_left _ _
    rw [hacc, htake,
      addInto_resize_take mono _ _ _ (le_of_lt hlt) hdl, List.take_append_drop]
  case isFalse hge =>
    have hEq : (procLoopEnd (fun _ fr => some fr) mono fft fft).pos = mono.length := by
      omega
    rw [hacc, hEq, List.take_length]

/-- Witness for C6 at the input `[1, 2, 3]` with frame and hop 2 (one
full frame plus a padded final frame). -/
theorem overlap_add_identity_witness :
    procFinalFrame (fun _ fr => some fr) [1, 2, 3] 2
      (procLoopEnd (fun _ fr => some fr) [1, 2, 3] 2 2).pos
      (procLoopEnd (fun _ fr => some fr) [1, 2, 3] 2 2).k
      (procLoopEnd (fun _ fr => some fr) [1, 2, 3] 2 2).acc = [1, 2, 3] :=
  overlap_add_identity [1, 2, 3] 2 (by norm_num)

/-- C7: under a sane configuration `0 < hop ≤ fft`, when the hop size
does not divide the input length a final short frame remains: it is
zero-padded to exactly the frame length, the accumulator ends at exactly
the input length (the padding region is never written), the entries
below the final offset are untouched by the trailing step, and inside
the range each output entry receives exactly the corresponding engine
output entry — only the in-range front part of the processed padded
frame is added. -/
theorem final_frame_in_range_only (e : Engine) (mono : List ℚ) (fft hop : Nat)
    (hh : 0 < hop) (hf : hop ≤ fft) (hnd : ¬ hop ∣ mono.length)
    (s : ProcLoopState) (hs : s = procLoopEnd e mono fft hop) :
    s.pos < mono.length ∧
    mono.length - s.pos < fft ∧
    (mono.drop s.pos ++
      List.replicate (fft - (mono.length - s.pos)) 0).length = fft ∧
    (procFinalFrame e mono fft s.pos s.k s.acc).length = mono.length ∧
    (procFinalFrame e mono fft s.pos s.k s.acc).take s.pos =
      s.acc.take s.pos ∧
    (∀ out, e s.k (mono.drop s.pos ++
        List.replicate (fft - (mono.length - s.pos)) 0) = some out →
      ∀ i, i < mono.length - s.pos →
        (procFinalFrame e mono fft s.pos s.k s.acc).getD (s.pos + i) 0 =
          (resizeTo s.acc mono.length).getD (s.pos + i) 0 + out.getD i 0) := by
  obtain ⟨i1, i2, i3, i4⟩ :
      hop ∣ s.pos ∧ s.pos ≤ mono.length ∧ s.pos ≤ s.acc.length ∧
        s.acc.length ≤ mono.length := by
    rw [hs]
    exact procLoop_core_inv e mono fft hop ((mono.length + fft - 1) / hop) hh hf
      (mono.length + 1) { acc := [], pos := 0, k := 0, events := [] }
      (dvd_zero hop) (Nat.zero_le _) (Nat.le_refl 0) (Nat.zero_le _)
  have hstop : ¬(s.pos + fft ≤ mono.length) := by
    rw [hs]
    exact procLoop_stop e mono fft hop ((mono.length + fft - 1) / hop) hh
      (mono.length + 1) { acc := [], pos := 0, k := 0, events := [] }
      (by show mono.length + 1 ≤ 0 + (mono.length + 1); omega)
  have hlt : s.pos < mono.length := by
    rcases Nat.eq_or_lt_of_le i2 with heq | hlt
    · exact absurd (heq ▸ i1) hnd
    · exact hlt
  have hr : mono.length - s.pos < fft := by omega
  have hpr : s.pos + (mono.length - s.pos) = mono.length := by omega
  have hresL : (resizeTo s.acc mono.length).length = mono.length := by
    rw [length_resizeTo]
    exact Nat.max_eq_right i4
  refine ⟨hlt, hr, ?_, ?_, ?_, ?_⟩
  · simp only [List.length_append, List.length_drop, List.length_replicate]
    omega
  · unfold procFinalFrame
    rw [if_pos hlt]
    dsimp only
    split <;> rw [hpr, length_addInto, hresL]
  · unfold procFinalFrame
    rw [if_pos hlt]
    dsimp only
    split <;> rw [hpr, addInto_take, resizeTo_eq_append _ _ i4,
      List.take_append_of_le_length i3]
  · intro out hout i hi
    unfold procFinalFrame
    rw [if_pos hlt]
    dsimp only
    rw [hout]
    dsimp only
    rw [hpr, addInto_getD _ _ _ i (by rw [hresL]; omega),
      getD_take_of_lt _ _ _ _ hi]

/-- Witness for C7: input of length 3, hop 2, frame 3, identity engine —
the loop stops at offset 2 and the trailing frame handling fills the
last sample. -/
theorem final_frame_in_range_only_witness :
    (procLoopEnd (fun _ fr => some fr) [(1 : ℚ) / 2, 1 / 4, 1 / 8] 3 2).pos < 3 ∧
    (procFinalFrame (fun _ fr => some fr) [(1 : ℚ) / 2, 1 / 4, 1 / 8] 3
      (procLoopEnd (fun _ fr => some fr) [(1 : ℚ) / 2, 1 / 4, 1 / 8] 3 2).pos
      (procLoopEnd (fun _ fr => some fr) [(1 : ℚ) / 2, 1 / 4, 1 / 8] 3 2).k
      (procLoopEnd (fun _ fr => some fr) [(1 : ℚ) / 2, 1 / 4, 1 / 8] 3 2).acc).length
      = 3 := by
  have h := final_frame_in_range_only (fun _ fr => some fr)
    [(1 : ℚ) / 2, 1 / 4, 1 / 8] 3 2 (by norm_num) (by norm_num) (by decide)
    _ rfl
  exact ⟨h.1, h.2.2.2.1⟩

/-- The two trailing-frame handlers agree whenever the engine does not
fail on the final partial frame (or no partial frame exists). -/
theorem cliFinalFrame_eq_procFinalFrame (e : Engine) (mono : List ℚ)
    (fft pos k : Nat) (acc : List ℚ)
    (hfin : pos < mono.length →
      e k (mono.drop pos ++ List.replicate (fft - (mono.length - pos)) 0) ≠
        none) :
    cliFinalFrame e mono fft pos k acc = procFinalFrame e mono fft pos k acc := by
  unfold cliFinalFrame procFinalFrame
  split
  case isTrue hlt =>
    dsimp only
    split
    · rfl
    · rename_i heq
      exact absurd heq (hfin hlt)
  case isFalse => rfl

/-- C2 amended: whenever the engine does not fail on a final partial
frame (in particular whenever no partial frame exists), the synchronous
CLI loop and the background-threaded loop produce the same written
samples and the same outcome for every input, configuration and engine.
The unqualified claim fails: a failing final partial frame is dropped by
the CLI loop but replaced by the original samples in the threaded loop,
and the progress denominators differ (`(n + hop - 1)/hop` in the CLI
versus `(n + fft - 1)/hop` in the threaded path). -/
theorem cli_threaded_agree_when_final_frame_ok (c : CliArgs) (e : Engine)
    (mono : List ℚ) (stereoIn : Bool) (bits : Nat)
    (hval : cliValidate c = none)
    (hfin : (procLoopEnd e mono c.fft_size c.hop_size).pos < mono.length →
      e (procLoopEnd e mono c.fft_size c.hop_size).k
        (mono.drop (procLoopEnd e mono c.fft_size c.hop_size).pos ++
          List.replicate (c.fft_size -
            (mono.length - (procLoopEnd e mono c.fft_size c.hop_size).pos))
            0) ≠ none) :
    (runCli c e mono stereoIn bits).1 =
      (runProc e mono c.fft_size c.hop_size stereoIn bits).1 := by
  obtain ⟨ea, ep, ek⟩ :
      (cliLoopEnd c.verbose e mono c.fft_size c.hop_size).acc =
        (procLoopEnd e mono c.fft_size c.hop_size).acc ∧
      (cliLoopEnd c.verbose e mono c.fft_size c.hop_size).pos =
        (procLoopEnd e mono c.fft_size c.hop_size).pos ∧
      (cliLoopEnd c.verbose e mono c.fft_size c.hop_size).k =
        (procLoopEnd e mono c.fft_size c.hop_size).k :=
    cliLoop_core_eq_procLoop c.verbose e mono c.fft_size c.hop_size
      ((mono.length + c.hop_size - 1) / c.hop_size)
      ((mono.length + c.fft_size - 1) / c.hop_size) (mono.length + 1)
      { acc := [], pos := 0, k := 0, printed := [] }
      { acc := [], pos := 0, k := 0, events := [] } rfl rfl rfl
  unfold runCli runProc
  rw [hval]
  dsimp only
  cases ho : outputScale bits with
  | none => rfl
  | some oscale =>
    dsimp only
    by_cases hh : c.hop_size = 0
    · rw [if_pos hh, if_pos hh]
    · rw [if_neg hh, if_neg hh]
      dsimp only
      rw [ea, ep, ek,
        cliFinalFrame_eq_procFinalFrame e mono c.fft_size _ _ _ hfin]

/-- Witness for the amended C2: identity engine, input `[1/2, 1/4, 1/8]`,
frame 2, hop 1 — both paths write the same samples. -/
theorem cli_threaded_agree_witness :
    (runCli { key := 0, strength := 0.8, transition := 0.1, formant := 0,
              octave := 2, fft_size := 2, hop_size := 1, verbose := false }
      (fun _ fr => some fr) [1 / 2, 1 / 4, 1 / 8] false 16).1 =
      (runProc (fun _ fr => some fr) [1 / 2, 1 / 4, 1 / 8] 2 1 false 16).1 :=
  cli_threaded_agree_when_final_frame_ok
    { key := 0, strength := 0.8, transition := 0.1, formant := 0,
      octave := 2, fft_size := 2, hop_size := 1, verbose := false }
    (fun _ fr => some fr) [1 / 2, 1 / 4, 1 / 8] false 16
    (by norm_num [cliValidate]) (fun _ => by simp)

/-- C2 as stated fails: with an engine failing on the (only, partial)
frame of the input `[1/2]`, the threaded path falls back to the original
sample and writes one sample, while the CLI path drops the frame and
writes no samples; both still report success. -/
theorem cli_threaded_divergence :
    (runProc (fun _ _ => none) [1 / 2] 2 1 false 16).1 =
      RunOutcome.ok [16384] ∧
    (runCli { key := 0, strength := 0.8, transition := 0.1, formant := 0,
              octave := 2, fft_size := 2, hop_size := 1, verbose := false }
      (fun _ _ => none) [1 / 2] false 16).1 = RunOutcome.ok [] ∧
    (runProc (fun _ _ => none) [1 / 2] 2 1 false 16).1 ≠
      (runCli { key := 0, strength := 0.8, transition := 0.1, formant := 0,
                octave := 2, fft_size := 2, hop_size := 1, verbose := false }
        (fun _ _ => none) [1 / 2] false 16).1 := by
  have e1 : rndAway ((32767 : ℚ) / 2) = 16384 :=
    rndAway_nonneg_eq _ _ (by norm_num) (by norm_num) (by norm_num)
  have hp : (runProc (fun _ _ => none) [1 / 2] 2 1 false 16).1 =
      RunOutcome.ok [16384] := by
    norm_num [runProc, outputScale, procLoopEnd, procLoop, procFinalFrame,
      resizeTo, addInto, normalize, peakOf, max_def, abs, e1]
  have hc : (runCli { key := 0, strength := 0.8, transition := 0.1,
                      formant := 0, octave := 2, fft_size := 2, hop_size := 1,
                      verbose := false }
      (fun _ _ => none) [1 / 2] false 16).1 = RunOutcome.ok [] := by
    norm_num [runCli, cliValidate, outputScale, cliLoopEnd, cliLoop,
      cliFinalFrame, normalize, peakOf]
  refine ⟨hp, hc, ?_⟩
  rw [hp, hc]
  simp

/-- C1: neither path validates the hop/frame sizes.  A zero hop size is
not rejected with a configuration error: both paths die in the
`total_chunks` integer division (a panic) even though the CLI argument
validation accepts the configuration; and an inverted configuration
(hop 2 > frame 1) is processed to a success outcome, silently skipping
input samples. -/
theorem no_hop_frame_validation :
    (runProc (fun _ fr => some fr) [1 / 2] 1024 0 false 16).1 =
      RunOutcome.panic ∧
    cliValidate { key := 0, strength := 0.8, transition := 0.1, formant := 0,
                  octave := 2, fft_size := 1024, hop_size := 0,
                  verbose := false } = none ∧
    (runCli { key := 0, strength := 0.8, transition := 0.1, formant := 0,
              octave := 2, fft_size := 1024, hop_size := 0, verbose := false }
      (fun _ fr => some fr) [1 / 2] false 16).1 = RunOutcome.panic ∧
    (runProc (fun _ fr => some fr) [1 / 2, 1 / 4] 1 2 false 16).1 =
      RunOutcome.ok [16384] := by
  have e1 : rndAway ((32767 : ℚ) / 2) = 16384 :=
    rndAway_nonneg_eq _ _ (by norm_num) (by norm_num) (by norm_num)
  refine ⟨?_, ?_, ?_, ?_⟩
  · norm_num [runProc, outputScale]
  · norm_num [cliValidate]
  · norm_num [runCli, cliValidate, outputScale]
  · norm_num [runProc, outputScale, procLoopEnd, procLoop, procFinalFrame,
      resizeTo, addInto, normalize, peakOf, max_def, abs, e1]

/-- C3: on the input `[1/4, 1/2, 3/4]` with frame 3 and hop 2 and an
engine failing on every frame, the threaded path adds the original
samples for both the full frame and the final partial frame (the peak
reaches 3/2, normalization kicks in, and the run succeeds), while the
CLI path silently drops the failing final partial frame — its index 2
receives only the full-frame fallback — and also succeeds. -/
theorem cli_final_frame_fallback_missing :
    (runProc (fun _ _ => none) [1 / 4, 1 / 2, 3 / 4] 3 2 false 16).1 =
      RunOutcome.ok [5188, 10376, 31129] ∧
    (runCli { key := 0, strength := 0.8, transition := 0.1, formant := 0,
              octave := 2, fft_size := 3, hop_size := 2, verbose := false }
      (fun _ _ => none) [1 / 4, 1 / 2, 3 / 4] false 16).1 =
      RunOutcome.ok [8192, 16384, 24575] := by
  have e1 : rndAway ((622573 : ℚ) / 120) = 5188 :=
    rndAway_nonneg_eq _ _ (by norm_num) (by norm_num) (by norm_num)
  have e2 : rndAway ((622573 : ℚ) / 60) = 10376 :=
    rndAway_nonneg_eq _ _ (by norm_num) (by norm_num) (by norm_num)
  have e3 : rndAway ((622573 : ℚ) / 20) = 31129 :=
    rndAway_nonneg_eq _ _ (by norm_num) (by norm_num) (by norm_num)
  have f1 : rndAway ((32767 : ℚ) / 4) = 8192 :=
    rndAway_nonneg_eq _ _ (by norm_num) (by norm_num) (by norm_num)
  have f2 : rndAway ((32767 : ℚ) / 2) = 16384 :=
    rndAway_nonneg_eq _ _ (by norm_num) (by norm_num) (by norm_num)
  have f3 : rndAway ((98301 : ℚ) / 4) = 24575 :=
    rndAway_nonneg_eq _ _ (by norm_num) (by norm_num) (by norm_num)
  constructor
  · norm_num [runProc, outputScale, procLoopEnd, procLoop, procFinalFrame,
      resizeTo, addInto, normalize, peakOf, max_def, abs, e1, e2, e3]
  · norm_num [runCli, cliValidate, outputScale, cliLoopEnd, cliLoop,
      cliFinalFrame, resizeTo, addInto, normalize, peakOf, max_def, abs,
      f1, f2, f3]

/-- C4: on a 4-sample input with hop 1 and frame 2, the threaded loop
processes three full frames and emits the fractions `k / 5`, because its
total chunk count is `(n + fft_size - 1) / hop_size = 5` — not
`ceil(n / hopSize) = 4` as the claim (and cli.rs:222) would give. -/
theorem progress_total_uses_fft_size :
    (runProc (fun _ fr => some fr) [1 / 8, 1 / 8, 1 / 8, 1 / 8] 2 1
        false 16).2 = [1 / 5, 2 / 5, 3 / 5] ∧
    (runProc (fun _ fr => some fr) [1 / 8, 1 / 8, 1 / 8, 1 / 8] 2 1
        false 16).2 ≠ [1 / 4, 2 / 4, 3 / 4] := by
  have h : (runProc (fun _ fr => some fr) [1 / 8, 1 / 8, 1 / 8, 1 / 8] 2 1
      false 16).2 = [1 / 5, 2 / 5, 3 / 5] := by
    norm_num [runProc, outputScale, procLoopEnd, procLoop, procFinalFrame,
      resizeTo, addInto]
  refine ⟨h, ?_⟩
  rw [h]
  norm_num

end Autotune
